import Mathlib

/-!
Shallow embedding of the dxfuse manifest loader (Go package `dxfuse`, file
containing `ManifestFile`, `ManifestDir`, `Manifest`, `validateDirName`,
`validProject`, `Validate`, `Clean`, `ReadManifest`, `ancestors`, `Dirs`,
`DirSkeleton`, `FillInMissingFields`).

Modelling conventions:
* Go strings are modelled as Lean `String` and manipulated through their
  `List Char` data.  All paths of interest are ASCII, where Go's byte-level
  indexing agrees with character-level indexing (`'/'` is a one-byte rune and
  can never be a trailing byte of a multi-byte rune in valid UTF-8).
* Go's `int64` fields are modelled as `Int`; the loader only compares them
  with `0` and copies them, so 64-bit wrap-around never arises.
* `filepath.Clean`, `filepath.Dir` and `filepath.Split` (Go standard library,
  Unix rules) are modelled by the component-list algorithm below, which is the
  specification of `Clean` given in its documentation: split on `'/'`, drop
  empty and `"."` components, resolve `".."` against a stack (at the root a
  `".."` is dropped; in a relative path unmatched `".."`s accumulate in
  front), rejoin, and return `"."` for an empty relative result and `"/"` for
  an empty rooted result.
* The Go function `ancestors` recurses on `filepath.Dir` and does not
  terminate on inputs whose `Dir`-chain never reaches `""` or `"/"` (for
  example any relative path: `Dir "a" = "."` and `Dir "." = "."`).  It is
  modelled with explicit fuel `length p + 1`: for a rooted path each `Dir`
  step strictly shortens the path, so the fuel suffices exactly when the Go
  recursion terminates, and the model returns `none` exactly when the Go
  program diverges.
* Go map iteration order is unspecified; sets built through maps are modelled
  as insertion-ordered duplicate-free lists.  `sort.Sort` (an unstable sort)
  is modelled by insertion sort; every property proved about the sorted
  output is invariant under the choice among permutations sorted by the same
  comparison, which is all Go guarantees.
* Errors built with `fmt.Errorf` are modelled by the inductive `Err`, one
  constructor per `Errorf` call site, carrying the formatted arguments.
-/

/-- Split a character list on `'/'`; the result is always nonempty and its
elements contain no `'/'`. Mirrors the component decomposition used by Go's
`filepath.Clean`. -/
def splitOnSlash : List Char → List (List Char)
  | [] => [[]]
  | c :: cs =>
    let r := splitOnSlash cs
    if c = '/' then [] :: r
    else
      match r with
      | [] => [[c]]
      | g :: gs => (c :: g) :: gs

/-- Join components with `'/'` separators (inverse of `splitOnSlash` on
slash-free components). -/
def joinSlash : List (List Char) → List Char
  | [] => []
  | [c] => c
  | c :: cs => c ++ '/' :: joinSlash cs

/-- One step of Go `filepath.Clean`'s element processing: skip empty and `"."`
components, resolve `".."` against the output stack (`acc` holds the output
components in reverse). `rooted` tells whether the path began with `'/'`. -/
def cleanPush (rooted : Bool) (acc : List (List Char)) (c : List Char) :
    List (List Char) :=
  if c = [] then acc
  else if c = ['.'] then acc
  else if c = ['.', '.'] then
    match acc with
    | [] => if rooted then [] else [['.', '.']]
    | a :: rest => if a = ['.', '.'] then c :: a :: rest else rest
  else c :: acc

/-- Process a component list as Go `filepath.Clean` does, returning the output
components in order. -/
def processComps (rooted : Bool) (cs : List (List Char)) : List (List Char) :=
  (cs.foldl (cleanPush rooted) []).reverse

/-- Render processed components back into a path, as Go `filepath.Clean`:
empty rooted result is `"/"`, empty relative result is `"."`. -/
def renderComps (rooted : Bool) (cs : List (List Char)) : List Char :=
  match cs with
  | [] => if rooted then ['/'] else ['.']
  | _ :: _ => if rooted then '/' :: joinSlash cs else joinSlash cs

/-- Go `filepath.Clean` (Unix rules) on a character list. -/
def cleanL (s : List Char) : List Char :=
  match s with
  | [] => ['.']
  | c :: _ =>
    let rooted := c = '/'
    renderComps rooted (processComps rooted (splitOnSlash s))

/-- Go `filepath.Clean` on strings. -/
def clean (s : String) : String := ⟨cleanL s.data⟩

/-- Go `filepath.Split` on a character list: split after the last `'/'`;
first component is the directory part (with trailing slash), second the file
part. -/
def splitPathL (s : List Char) : List Char × List Char :=
  ((s.reverse.dropWhile (fun c => ¬ (c = '/'))).reverse,
   (s.reverse.takeWhile (fun c => ¬ (c = '/'))).reverse)

/-- Go `filepath.Dir` on a character list: `Clean` of the part of the path up
to and including the final `'/'` (`Clean "" = "."` covers the separator-free
case). -/
def dirL (s : List Char) : List Char := cleanL (splitPathL s).1

/-- Go `filepath.Dir` on strings. -/
def dirS (s : String) : String := ⟨dirL s.data⟩

/-- The directory part of Go `filepath.Split`, as used by `DirSkeleton`
(`dirParent, _ := filepath.Split(d.Dirname)`). -/
def dirParent (s : String) : String := ⟨(splitPathL s.data).1⟩

/-- Fueled model of the Go function `ancestors` (which recurses on
`filepath.Dir` and diverges when the `Dir`-chain never reaches `""` or `"/"`).
`none` models divergence. -/
def ancestorsL : Nat → List Char → Option (List (List Char))
  | 0, _ => none
  | fuel + 1, p =>
    if p = [] ∨ p = ['/'] then some [['/']]
    else
      match ancestorsL fuel (dirL p) with
      | none => none
      | some l => some (l ++ [cleanL p])

/-- The Go function `ancestors` on strings: for a rooted path every
`filepath.Dir` step strictly shortens the path, so fuel `length + 1` is
exact — the model returns `some` precisely when the Go recursion terminates. -/
def ancestors (p : String) : Option (List String) :=
  (ancestorsL (p.data.length + 1) p.data).map (fun l => l.map (fun c => ⟨c⟩))

/-- Go `strings.Count s "/"`: for a one-character pattern this is the number
of `'/'` characters. -/
def countSlash (s : String) : Nat := s.data.countP (fun c => c = '/')

/-- Go `strings.HasPrefix pre s` (note the argument order: prefix first). -/
def goPre (pre s : String) : Bool := pre.data.isPrefixOf s.data

/-- `p` is a proper ancestor directory of `q`: either `p` is the root and `q`
is a different rooted path, or `q` extends `p` past a `'/'` separator. -/
def isAncestorOf (p q : String) : Bool :=
  if p = "/" then (if q = "/" then false else goPre "/" q)
  else goPre (p ++ "/") q

/-- A plain path component: nonempty, not `"."`, not `".."`, slash-free.
The components of a `filepath.Clean`-canonical rooted path are exactly the
plain ones. -/
def plainComp (c : List Char) : Prop :=
  c ≠ [] ∧ c ≠ ['.'] ∧ c ≠ ['.', '.'] ∧ '/' ∉ c

instance (c : List Char) : Decidable (plainComp c) := by
  unfold plainComp; infer_instance

/-- The expected value of `ancestors` on the canonical rooted path whose
component list is `rs.reverse`: the renderings of all its prefixes, shortest
first. -/
def ancRenderRev : List (List Char) → List (List Char)
  | [] => [['/']]
  | c :: rs => ancRenderRev rs ++ [renderComps true (c :: rs).reverse]

/-- Record `ManifestFile` of the source (JSON field names `proj_id`,
`file_id`, `parent`, `fname`, `size`, `ctime`, `mtime`). -/
structure ManifestFile where
  projId : String
  fileId : String
  parent : String
  fname : String
  size : Int
  ctimeMillisec : Int
  mtimeMillisec : Int
deriving DecidableEq, Repr

/-- Record `ManifestDir` of the source (JSON field names `proj_id`, `folder`,
`dirname`, `ctime`, `mtime`). -/
structure ManifestDir where
  projId : String
  folder : String
  dirname : String
  ctimeMillisec : Int
  mtimeMillisec : Int
deriving DecidableEq, Repr

/-- Record `Manifest` of the source. -/
structure Manifest where
  files : List ManifestFile
  directories : List ManifestDir
deriving DecidableEq, Repr

/-- One constructor per `fmt.Errorf` / error site of the manifest loader.
`invalidProjectId`, `invalidFileId`, `emptyDirName`, `dirNoSlash` are the
`InvalidManifest` validation errors; `duplicateMount` is
"directory %s is used twice"; `illegalMountNotLeaf` is
"%s is a not leaf on the directory scaffolding (%v)" and carries the sorted
element list that the message formats; `jsonDecode` stands for a
`json.Unmarshal` error in `ReadManifest`. -/
inductive Err where
  | invalidProjectId (pId : String)
  | invalidFileId (fId : String)
  | emptyDirName (p : String)
  | dirNoSlash (p : String)
  | duplicateMount (dirname : String)
  | illegalMountNotLeaf (dirname : String) (elems : List String)
  | jsonDecode
deriving DecidableEq, Repr

/-- Go `validateDirName`: empty name and missing leading slash are errors. -/
def validateDirName (p : String) : Except Err Unit :=
  match p.data with
  | [] => .error (.emptyDirName p)
  | c :: _ => if ¬ (c = '/') then .error (.dirNoSlash p) else .ok ()

/-- Go `validProject`: the id must start with `"project-"` or
`"container-"`. -/
def validProject (pId : String) : Bool :=
  goPre "project-" pId || goPre "container-" pId

/-- The file loop of Go `Manifest.Validate`, first error wins. -/
def validateFiles : List ManifestFile → Except Err Unit
  | [] => .ok ()
  | fl :: fls =>
    if ¬ validProject fl.projId then .error (.invalidProjectId fl.projId)
    else if ¬ goPre "file-" fl.fileId then .error (.invalidFileId fl.fileId)
    else
      match validateDirName fl.parent with
      | .error e => .error e
      | .ok () => validateFiles fls

/-- The directory loop of Go `Manifest.Validate`. -/
def validateDirs : List ManifestDir → Except Err Unit
  | [] => .ok ()
  | d :: ds =>
    if ¬ validProject d.projId then .error (.invalidProjectId d.projId)
    else
      match validateDirName d.dirname with
      | .error e => .error e
      | .ok () => validateDirs ds

/-- Go `Manifest.Validate`. -/
def Manifest.Validate (m : Manifest) : Except Err Unit :=
  match validateFiles m.files with
  | .error e => .error e
  | .ok () => validateDirs m.directories

/-- Go `Manifest.Clean`: replace every path field by its `filepath.Clean`
form. -/
def Manifest.Clean (m : Manifest) : Manifest where
  files := m.files.map (fun fl => { fl with parent := clean fl.parent })
  directories := m.directories.map (fun d => { d with dirname := clean d.dirname })

/-- Set-as-list insertion used to model Go's `map[string]bool` sets
(`tree[p] = true`); insertion order stands in for Go's unspecified map
iteration order. -/
def insertUniq (l : List String) (x : String) : List String :=
  if x ∈ l then l else l ++ [x]

/-- Insert a whole ancestor list into the `tree` set. -/
def addAll (t : List String) (ps : List String) : List String :=
  ps.foldl insertUniq t

/-- Insertion by `Dirs.Less` order: ascending `strings.Count _ "/"`. -/
def insertByCount (x : String) : List String → List String
  | [] => [x]
  | y :: ys =>
    if countSlash x ≤ countSlash y then x :: y :: ys
    else y :: insertByCount x ys

/-- Model of `sort.Sort (Dirs{elems})`: a permutation sorted by ascending
number of `'/'` separators (Go's sort is unstable, so only sortedness and
the multiset of elements are specified; insertion sort realizes both). -/
def sortByCount (l : List String) : List String :=
  l.foldr insertByCount []

/-- The file loop of Go `DirSkeleton`: insert all `ancestors fl.Parent` into
`tree`. `none` models divergence of `ancestors`. -/
def filesTree : List ManifestFile → List String → Option (List String)
  | [], t => some t
  | fl :: fls, t =>
    match ancestors fl.parent with
    | none => none
    | some ps => filesTree fls (addAll t ps)

/-- The directory loop of Go `DirSkeleton`: insert the ancestors of each
mount's parent (`filepath.Split`) into `tree` and detect duplicate mount
paths via the `allDirs` set (modelled as the `seen` list). -/
def dirsScan : List ManifestDir → List String → List String →
    Option (Except Err (List String))
  | [], t, _ => some (.ok t)
  | d :: ds, t, seen =>
    match ancestors (dirParent d.dirname) with
    | none => none
    | some ps =>
      let t' := addAll t ps
      if d.dirname ∈ seen then some (.error (.duplicateMount d.dirname))
      else dirsScan ds t' (seen ++ [d.dirname])

/-- Go `Manifest.DirSkeleton`: build the `tree` set from file parents and
mount parents (rejecting duplicate mounts), sort it by ascending slash count,
drop `"/"`, and reject any mount that itself occurs in `tree`.  The outer
`Option` models divergence of the Go recursion in `ancestors`. -/
def Manifest.DirSkeleton (m : Manifest) : Option (Except Err (List String)) :=
  match filesTree m.files [] with
  | none => none
  | some t0 =>
    match dirsScan m.directories t0 [] with
    | none => none
    | some (.error e) => some (.error e)
    | some (.ok tree) =>
      let elems := sortByCount tree
      let retval := elems.filter (fun e => ¬ (e = "/"))
      match m.directories.find? (fun d => decide (d.dirname ∈ tree)) with
      | some d => some (.error (.illegalMountNotLeaf d.dirname elems))
      | none => some (.ok retval)

instance {ε α : Type} [DecidableEq ε] [DecidableEq α] : DecidableEq (Except ε α) :=
  fun a b =>
    match a, b with
    | .ok x, .ok y =>
      if h : x = y then .isTrue (by rw [h]) else .isFalse (by simp [h])
    | .error x, .error y =>
      if h : x = y then .isTrue (by rw [h]) else .isFalse (by simp [h])
    | .ok _, .error _ => .isFalse (by simp)
    | .error _, .ok _ => .isFalse (by simp)

/-- A directory entry with the given mount path (project fields irrelevant to
`DirSkeleton`, which reads only `Dirname`). -/
def mountAt (p : String) : ManifestDir :=
  { projId := "project-1", folder := "/", dirname := p
    ctimeMillisec := 1, mtimeMillisec := 1 }

/-- A file entry with the given parent path and all optional fields missing
(zero values), as in manifest JSON without `fname`/`size`/`ctime`/`mtime`. -/
def fileAt (parent : String) : ManifestFile :=
  { projId := "project-1", fileId := "file-1", parent := parent
    fname := "", size := 0, ctimeMillisec := 0, mtimeMillisec := 0 }

/-- The manifest of scenario S1: mounts at `/A/B`, `/D`, `/A/E`, no files. -/
def mS1 : Manifest :=
  { files := [], directories := [mountAt "/A/B", mountAt "/D", mountAt "/A/E"] }

/-- The manifest of scenario S4: one file whose project id is `"foo-123"`. -/
def mC6 : Manifest :=
  { files := [{ fileAt "/a" with projId := "foo-123" }], directories := [] }

/-- JSON values, the target of Go `json.Marshal` / source of `json.Unmarshal`
(modelled at the abstract-syntax level; rendering to text and re-parsing the
text is the identity on this AST for valid UTF-8 strings and is not
modelled). -/
inductive JValue where
  | jnull
  | jbool (b : Bool)
  | jnum (n : Int)
  | jstr (s : String)
  | jarr (xs : List JValue)
  | jobj (fields : List (String × JValue))

/-- Go `json.Marshal` of a `ManifestFile` with the source's struct tags:
`fname`, `size`, `ctime`, `mtime` carry `omitempty`, so they are omitted at
their zero values (`""` / `0`). -/
def marshalFile (fl : ManifestFile) : JValue :=
  .jobj ([("proj_id", .jstr fl.projId), ("file_id", .jstr fl.fileId),
      ("parent", .jstr fl.parent)]
    ++ (if fl.fname = "" then [] else [("fname", .jstr fl.fname)])
    ++ (if fl.size = 0 then [] else [("size", .jnum fl.size)])
    ++ (if fl.ctimeMillisec = 0 then [] else [("ctime", .jnum fl.ctimeMillisec)])
    ++ (if fl.mtimeMillisec = 0 then [] else [("mtime", .jnum fl.mtimeMillisec)]))

/-- Go `json.Marshal` of a `ManifestDir` (`ctime`, `mtime` are `omitempty`). -/
def marshalDir (d : ManifestDir) : JValue :=
  .jobj ([("proj_id", .jstr d.projId), ("folder", .jstr d.folder),
      ("dirname", .jstr d.dirname)]
    ++ (if d.ctimeMillisec = 0 then [] else [("ctime", .jnum d.ctimeMillisec)])
    ++ (if d.mtimeMillisec = 0 then [] else [("mtime", .jnum d.mtimeMillisec)]))

/-- Go `json.Marshal` of a `Manifest` (a nil slice marshals as `null`, an
empty one as `[]`; Lean's `List` does not distinguish them and `unmarshal`
accepts both, so the choice does not affect the round trip). -/
def marshalManifest (m : Manifest) : JValue :=
  .jobj [("files", .jarr (m.files.map marshalFile)),
         ("directories", .jarr (m.directories.map marshalDir))]

/-- Field lookup in a decoded JSON object (exact-name match; Go also falls
back to a case-insensitive match and lets a duplicate key's later value win,
neither of which can arise on `marshal` output). -/
def getField (fs : List (String × JValue)) (name : String) : Option JValue :=
  (fs.find? (fun kv => kv.1 = name)).map (fun kv => kv.2)

/-- Decode a string struct field as Go `json.Unmarshal` does: a missing field
or `null` leaves the zero value `""`, a string is taken, any other value is a
type error. -/
def decStrField (fs : List (String × JValue)) (name : String) : Option String :=
  match getField fs name with
  | none => some ""
  | some .jnull => some ""
  | some (.jstr s) => some s
  | some _ => none

/-- Decode an `int64` struct field (missing or `null` leaves `0`). -/
def decIntField (fs : List (String × JValue)) (name : String) : Option Int :=
  match getField fs name with
  | none => some 0
  | some .jnull => some 0
  | some (.jnum n) => some n
  | some _ => none

/-- Elementwise option-valued decoding of a list (the first failure wins),
as Go array decoding into a slice. -/
def mapMO {α β : Type} (f : α → Option β) : List α → Option (List β)
  | [] => some []
  | a :: as =>
    match f a with
    | none => none
    | some b => (mapMO f as).map (fun bs => b :: bs)

/-- Decode a slice struct field: missing or `null` leaves the nil slice, an
array decodes elementwise, anything else is a type error. -/
def decArrField {α : Type} (dec : JValue → Option α)
    (fs : List (String × JValue)) (name : String) : Option (List α) :=
  match getField fs name with
  | none => some []
  | some .jnull => some []
  | some (.jarr xs) => mapMO dec xs
  | some _ => none

/-- Go `json.Unmarshal` into a `ManifestFile`. -/
def unmarshalFile (j : JValue) : Option ManifestFile :=
  match j with
  | .jobj fs =>
    match decStrField fs "proj_id", decStrField fs "file_id",
          decStrField fs "parent", decStrField fs "fname",
          decIntField fs "size", decIntField fs "ctime",
          decIntField fs "mtime" with
    | some pid, some fid, some par, some fn, some sz, some ct, some mt =>
      some ⟨pid, fid, par, fn, sz, ct, mt⟩
    | _, _, _, _, _, _, _ => none
  | _ => none

/-- Go `json.Unmarshal` into a `ManifestDir`. -/
def unmarshalDir (j : JValue) : Option ManifestDir :=
  match j with
  | .jobj fs =>
    match decStrField fs "proj_id", decStrField fs "folder",
          decStrField fs "dirname", decIntField fs "ctime",
          decIntField fs "mtime" with
    | some pid, some fo, some dn, some ct, some mt =>
      some ⟨pid, fo, dn, ct, mt⟩
    | _, _, _, _, _ => none
  | _ => none

/-- Go `json.Unmarshal` into a `Manifest`. -/
def unmarshalManifest (j : JValue) : Option Manifest :=
  match j with
  | .jobj fs =>
    match decArrField unmarshalFile fs "files",
          decArrField unmarshalDir fs "directories" with
    | some fls, some ds => some ⟨fls, ds⟩
    | _, _ => none
  | _ => none

/-- Go `ReadManifest` from the already-read JSON value: unmarshal, `Validate`
(error aborts), `Clean`, return the cleaned manifest.  File I/O is outside
the model. -/
def ReadManifestJ (j : JValue) : Except Err Manifest :=
  match unmarshalManifest j with
  | none => .error .jsonDecode
  | some m =>
    match m.Validate with
    | .error e => .error e
    | .ok () => .ok m.Clean

/-- The fields of the remote `DxDescribeDataObject` record that
`FillInMissingFields` reads (the full record lives outside this file). -/
structure DxDescribeDataObject where
  name : String
  size : Int
  ctimeMillisec : Int
  mtimeMillisec : Int
deriving DecidableEq, Repr

/-- The fields of the remote `DxDescribePrj` record that
`FillInMissingFields` reads. -/
structure DxDescribePrj where
  id : String
  ctimeMillisec : Int
  mtimeMillisec : Int
deriving DecidableEq, Repr

/-- The condition under which `FillInMissingFields` treats a file as missing
details: `Fname == "" || Size == 0 || CtimeMillisec == 0 || MtimeMillisec == 0`. -/
def missingFileInfo (fl : ManifestFile) : Bool :=
  fl.fname = "" || fl.size = 0 || fl.ctimeMillisec = 0 || fl.mtimeMillisec = 0

/-- The `fileIds` set of `FillInMissingFields` (a Go `map` keyed set,
modelled in first-insertion order): the ids of files missing any detail. -/
def missingFileIds (m : Manifest) : List String :=
  m.files.foldl
    (fun acc fl => if missingFileInfo fl then insertUniq acc fl.fileId else acc) []

/-- The `projectIds` set of `FillInMissingFields`: projects of directory
entries missing `ctime` or `mtime`. -/
def missingProjIds (m : Manifest) : List String :=
  m.directories.foldl
    (fun acc d =>
      if d.ctimeMillisec = 0 ∨ d.mtimeMillisec = 0 then insertUniq acc d.projId
      else acc) []

/-- The write-back loop body for files: when the describe response contains
the file's id, `Size`, `CtimeMillisec`, `MtimeMillisec` are overwritten
unconditionally and `Fname` only if it was empty; otherwise the entry is
untouched. -/
def fillFile (dataObjs : String → Option DxDescribeDataObject)
    (fl : ManifestFile) : ManifestFile :=
  match dataObjs fl.fileId with
  | none => fl
  | some fDesc =>
    { fl with
      fname := if fl.fname = "" then fDesc.name else fl.fname
      size := fDesc.size
      ctimeMillisec := fDesc.ctimeMillisec
      mtimeMillisec := fDesc.mtimeMillisec }

/-- The write-back loop body for directories: when `projDescs` contains the
directory's project id, both times are overwritten unconditionally. -/
def fillDir (projDescs : String → Option DxDescribePrj)
    (d : ManifestDir) : ManifestDir :=
  match projDescs d.projId with
  | none => d
  | some pDesc =>
    { d with
      ctimeMillisec := pDesc.ctimeMillisec
      mtimeMillisec := pDesc.mtimeMillisec }

/-- The project-describe loop of `FillInMissingFields`: describe each
collected project id in turn (the first error aborts) and build the
`projDescs` map, keyed — as in the source — by the id of the *response*
(`projDescs[pDesc.Id] = *pDesc`). -/
def describeProjects (descProj : String → Except String DxDescribePrj) :
    List String → (String → Option DxDescribePrj) →
      Except String (String → Option DxDescribePrj)
  | [], acc => .ok acc
  | pId :: rest, acc =>
    match descProj pId with
    | .error e => .error e
    | .ok pDesc =>
      describeProjects descProj rest
        (fun k => if k = pDesc.id then some pDesc else acc k)

/-- Go `Manifest.FillInMissingFields`, parameterized by the two remote
describe calls (`DxDescribeBulkObjects` applied to the collected file-id
list, and `DxDescribeProject` applied per project): fill files from the bulk
response, then fill directories from the described projects. -/
def FillInMissingFields (m : Manifest)
    (descBulk : List String → Except String (String → Option DxDescribeDataObject))
    (descProj : String → Except String DxDescribePrj) : Except String Manifest :=
  match descBulk (missingFileIds m) with
  | .error e => .error e
  | .ok dataObjs =>
    let files' := m.files.map (fillFile dataObjs)
    match describeProjects descProj (missingProjIds m) (fun _ => none) with
    | .error e => .error e
    | .ok projDescs =>
      .ok { files := files', directories := m.directories.map (fillDir projDescs) }

/-- The C8 counterexample manifest: two directory entries of the same
project, the first missing both times, the second complete. -/
def mC8 : Manifest :=
  { files := [],
    directories :=
      [{ projId := "project-1", folder := "/", dirname := "/A",
         ctimeMillisec := 0, mtimeMillisec := 0 },
       { projId := "project-1", folder := "/", dirname := "/B",
         ctimeMillisec := 5, mtimeMillisec := 7 }] }

/-- A bulk-describe response covering no ids at all. -/
def bulkC8 : List String → Except String (String → Option DxDescribeDataObject) :=
  fun _ => .ok (fun _ => none)

/-- A project describe knowing only `project-1` (and echoing its id). -/
def projC8 : String → Except String DxDescribePrj := fun pId =>
  if pId = "project-1" then
    .ok { id := "project-1", ctimeMillisec := 11, mtimeMillisec := 13 }
  else .error "not found"

/-- A manifest with non-canonical but valid paths, exercising `Clean` in the
round trip. -/
def mC7W : Manifest :=
  { files := [{ fileAt "/x//y/." with fileId := "file-7" }],
    directories := [mountAt "/A/B/"] }

example : clean "/A/B/" = "/A/B" := by decide
example : clean "" = "." := by decide
example : clean "a/../.." = ".." := by decide
example : clean "/../a//b/./c" = "/a/b/c" := by decide
example : dirS "/A/B" = "/A" := by decide
example : dirS "/A" = "/" := by decide
example : dirS "abc" = "." := by decide
example : dirS "/A/" = "/A" := by decide
example : dirParent "/A/B" = "/A/" := by decide
example : ancestors "/A/B/C" = some ["/", "/A", "/A/B", "/A/B/C"] := by decide
example : ancestors "" = some ["/"] := by decide
example : ancestors "a/b" = none := by decide
example : countSlash "/A/B" = 2 := by decide

example :
    (Manifest.DirSkeleton { files := [], directories := [mountAt "/A/B", mountAt "/D", mountAt "/A/E"] })
    = some (.ok ["/A"]) := by decide

example :
    (Manifest.DirSkeleton { files := [], directories := [mountAt "/X", mountAt "/X"] })
    = some (.error (.duplicateMount "/X")) := by decide

example :
    (Manifest.DirSkeleton { files := [], directories := [mountAt "/A", mountAt "/A/B"] })
    = some (.error (.illegalMountNotLeaf "/A" ["/", "/A"])) := by decide

example :
    (Manifest.DirSkeleton { files := [], directories := [mountAt "/"] })
    = some (.error (.illegalMountNotLeaf "/" ["/"])) := by decide

example :
    (Manifest.DirSkeleton { files := [], directories := [] }) = some (.ok []) := by decide

theorem validateDirName_ok_iff (p : String) :
    validateDirName p = .ok () ↔ p.data ≠ [] ∧ p.data.head? = some '/' := by
  unfold validateDirName
  cases h : p.data with
  | nil => simp
  | cons c cs =>
    by_cases hc : c = '/' <;> simp [hc]

theorem validateFiles_ok_iff (fls : List ManifestFile) :
    validateFiles fls = .ok () ↔
      ∀ fl ∈ fls, validProject fl.projId = true ∧ goPre "file-" fl.fileId = true ∧
        validateDirName fl.parent = .ok () := by
  induction fls with
  | nil => simp [validateFiles]
  | cons fl fls ih =>
    unfold validateFiles
    by_cases h1 : validProject fl.projId
    · by_cases h2 : goPre "file-" fl.fileId
      · cases h3 : validateDirName fl.parent with
        | error e =>
          simp only [h1, h2, not_true, if_false, if_neg]
          constructor
          · intro hfalse; cases hfalse
          · intro hall
            have := hall fl (by simp)
            rw [h3] at this
            cases this.2.2
        | ok u =>
          cases u
          simp [h1, h2, h3, ih]
      · simp only [h1, h2]
        constructor
        · intro hfalse; simp at hfalse
        · intro hall
          have := hall fl (by simp)
          exact absurd this.2.1 (by simp [h2])
    · simp only [h1]
      constructor
      · intro hfalse; simp at hfalse
      · intro hall
        have := hall fl (by simp)
        exact absurd this.1 (by simp [h1])

theorem validateDirs_ok_iff (ds : List ManifestDir) :
    validateDirs ds = .ok () ↔
      ∀ d ∈ ds, validProject d.projId = true ∧ validateDirName d.dirname = .ok () := by
  induction ds with
  | nil => simp [validateDirs]
  | cons d ds ih =>
    unfold validateDirs
    by_cases h1 : validProject d.projId
    · cases h3 : validateDirName d.dirname with
      | error e =>
        simp only [h1, if_neg, not_true, if_false]
        constructor
        · intro hfalse; cases hfalse
        · intro hall
          have := hall d (by simp)
          rw [h3] at this
          cases this.2
      | ok u =>
        cases u
        simp [h1, h3, ih]
    · simp only [h1]
      constructor
      · intro hfalse; simp at hfalse
      · intro hall
        have := hall d (by simp)
        exact absurd this.1 (by simp [h1])

theorem validate_ok_iff (m : Manifest) :
    m.Validate = .ok () ↔
      ((∀ fl ∈ m.files, validProject fl.projId = true ∧ goPre "file-" fl.fileId = true ∧
          validateDirName fl.parent = .ok ()) ∧
       (∀ d ∈ m.directories, validProject d.projId = true ∧
          validateDirName d.dirname = .ok ())) := by
  unfold Manifest.Validate
  cases hf : validateFiles m.files with
  | error e =>
    constructor
    · intro hfalse; cases hfalse
    · intro hall
      have := (validateFiles_ok_iff m.files).mpr hall.1
      rw [hf] at this
      cases this
  | ok u =>
    cases u
    rw [validateDirs_ok_iff]
    constructor
    · intro h
      exact ⟨(validateFiles_ok_iff m.files).mp hf, h⟩
    · intro h
      exact h.2

/-- C5: `Validate` succeeds on a manifest if and only if every file entry has
a project id prefixed `"project-"` or `"container-"`, a file id prefixed
`"file-"`, and a non-empty parent path whose first character is `'/'`, and
every directory entry has a project id with one of those two prefixes and a
non-empty mount path whose first character is `'/'`; any violation makes
`Validate` return an error (the `InvalidManifest` failure). -/
theorem c5_validate_iff (m : Manifest) :
    m.Validate = .ok () ↔
      ((∀ fl ∈ m.files, validProject fl.projId = true ∧ goPre "file-" fl.fileId = true ∧
          fl.parent.data ≠ [] ∧ fl.parent.data.head? = some '/') ∧
       (∀ d ∈ m.directories, validProject d.projId = true ∧
          d.dirname.data ≠ [] ∧ d.dirname.data.head? = some '/')) := by
  rw [validate_ok_iff]
  constructor
  · intro h
    refine ⟨fun fl hfl => ?_, fun d hd => ?_⟩
    · obtain ⟨h1, h2, h3⟩ := h.1 fl hfl
      exact ⟨h1, h2, (validateDirName_ok_iff _).mp h3⟩
    · obtain ⟨h1, h3⟩ := h.2 d hd
      exact ⟨h1, (validateDirName_ok_iff _).mp h3⟩
  · intro h
    refine ⟨fun fl hfl => ?_, fun d hd => ?_⟩
    · obtain ⟨h1, h2, h3⟩ := h.1 fl hfl
      exact ⟨h1, h2, (validateDirName_ok_iff _).mpr h3⟩
    · obtain ⟨h1, h3⟩ := h.2 d hd
      exact ⟨h1, (validateDirName_ok_iff _).mpr h3⟩

/-- C6: a manifest containing a file entry whose project id is `"foo-123"`
(a prefix that is neither `"project-"` nor `"container-"`) never validates:
`Validate` — a pure function of the manifest, making no remote call — returns
an error. -/
theorem c6_invalid_project_fails (m : Manifest)
    (h : ∃ fl ∈ m.files, fl.projId = "foo-123") :
    ∃ e, m.Validate = .error e := by
  cases hv : m.Validate with
  | error e => exact ⟨e, rfl⟩
  | ok u =>
    cases u
    exfalso
    obtain ⟨fl, hfl, hid⟩ := h
    have := ((validate_ok_iff m).mp hv).1 fl hfl
    rw [hid] at this
    have hbad : validProject "foo-123" = false := by decide
    rw [hbad] at this
    cases this.1

/-- Concrete instantiation of `c6_invalid_project_fails`. -/
theorem c6_invalid_project_fails_witness :
    (∃ fl ∈ mC6.files, fl.projId = "foo-123") ∧
    ∃ e, mC6.Validate = .error e :=
  ⟨by decide, c6_invalid_project_fails _ (by decide)⟩

/-- C1: on the scenario-S1 manifest, whose directory entries mount `/A/B`,
`/D` and `/A/E` and which has no files, `DirSkeleton` succeeds and returns
exactly `["/A"]`: every mount is a leaf and `/A` is the only intermediate
directory, the root `/` being omitted. -/
theorem c1_dirSkeleton_s1 : mS1.DirSkeleton = some (.ok ["/A"]) := by decide

theorem mem_insertByCount (a x : String) (l : List String) :
    a ∈ insertByCount x l ↔ a = x ∨ a ∈ l := by
  induction l with
  | nil => simp [insertByCount]
  | cons y ys ih =>
    unfold insertByCount
    by_cases h : countSlash x ≤ countSlash y
    · rw [if_pos h]
      simp only [List.mem_cons]
    · rw [if_neg h]
      simp only [List.mem_cons, ih]
      tauto

theorem pairwise_insertByCount (x : String) (l : List String)
    (h : l.Pairwise (fun a b => countSlash a ≤ countSlash b)) :
    (insertByCount x l).Pairwise (fun a b => countSlash a ≤ countSlash b) := by
  induction l with
  | nil => simp [insertByCount]
  | cons y ys ih =>
    rcases List.pairwise_cons.mp h with ⟨hy, hys⟩
    unfold insertByCount
    by_cases hc : countSlash x ≤ countSlash y
    · rw [if_pos hc]
      refine List.pairwise_cons.mpr ⟨?_, h⟩
      intro b hb
      rcases List.mem_cons.mp hb with rfl | hb
      · exact hc
      · exact le_trans hc (hy b hb)
    · rw [if_neg hc]
      refine List.pairwise_cons.mpr ⟨?_, ih hys⟩
      intro b hb
      rcases (mem_insertByCount b x ys).mp hb with rfl | hb
      · exact le_of_not_le hc
      · exact hy b hb

theorem sortByCount_pairwise (l : List String) :
    (sortByCount l).Pairwise (fun a b => countSlash a ≤ countSlash b) := by
  unfold sortByCount
  induction l with
  | nil => simp
  | cons x xs ih =>
    rw [List.foldr_cons]
    exact pairwise_insertByCount x _ ih

theorem countSlash_lt_of_ancestor (p q : String) (hp : ¬ (p = "/"))
    (h : isAncestorOf p q = true) : countSlash p < countSlash q := by
  unfold isAncestorOf at h
  rw [if_neg hp] at h
  unfold goPre at h
  obtain ⟨r, hr⟩ := List.isPrefixOf_iff_prefix.mp h
  unfold countSlash
  rw [← hr, String.data_append]
  rw [List.countP_append, List.countP_append]
  have hone : (("/" : String).data).countP (fun c => c = '/') = 1 := by decide
  rw [hone]
  omega

theorem dirSkeleton_ok_shape (m : Manifest) (l : List String)
    (h : m.DirSkeleton = some (.ok l)) :
    ∃ tree, l = (sortByCount tree).filter (fun e => ¬ (e = "/")) := by
  unfold Manifest.DirSkeleton at h
  split at h
  · cases h
  · split at h
    · cases h
    · simp at h
    · dsimp only at h
      split at h
      · simp at h
      · rename_i tree _ _ _
        refine ⟨tree, ?_⟩
        simp only [Option.some.injEq, Except.ok.injEq] at h
        exact h.symm

/-- C2: whenever `DirSkeleton` succeeds, the returned list is sorted by
ascending number of `'/'` separators, and consequently whenever one returned
path is a proper ancestor (prefix directory) of another returned path, the
ancestor appears earlier: no later element is a proper ancestor of an earlier
one. -/
theorem c2_skeleton_sorted (m : Manifest) (l : List String)
    (h : m.DirSkeleton = some (.ok l)) :
    l.Pairwise (fun a b => countSlash a ≤ countSlash b ∧ isAncestorOf b a = false) := by
  obtain ⟨tree, rfl⟩ := dirSkeleton_ok_shape m l h
  have hsorted := (sortByCount_pairwise tree).filter (fun e => decide (¬ (e = "/")))
  refine List.Pairwise.imp_of_mem ?_ hsorted
  intro a b ha hb hab
  refine ⟨hab, ?_⟩
  by_contra hanc
  rw [Bool.not_eq_false] at hanc
  have hbne : ¬ (b = "/") := by
    have hm := List.mem_filter.mp hb
    simpa using hm.2
  have := countSlash_lt_of_ancestor b a hbne hanc
  omega

/-- Concrete instantiation of `c2_skeleton_sorted` on the S1 manifest. -/
theorem c2_skeleton_sorted_witness :
    mS1.DirSkeleton = some (.ok ["/A"]) ∧
      (["/A"] : List String).Pairwise
        (fun a b => countSlash a ≤ countSlash b ∧ isAncestorOf b a = false) :=
  ⟨by decide, c2_skeleton_sorted mS1 ["/A"] (by decide)⟩

theorem addAll_cons (t : List String) (p : String) (ps : List String) :
    addAll t (p :: ps) = addAll (insertUniq t p) ps := rfl

theorem mem_insertUniq (x y : String) (l : List String) :
    x ∈ insertUniq l y ↔ x ∈ l ∨ x = y := by
  unfold insertUniq
  by_cases h : y ∈ l
  · rw [if_pos h]
    constructor
    · exact Or.inl
    · rintro (hx | rfl)
      · exact hx
      · exact h
  · rw [if_neg h]
    simp

theorem mem_addAll_left (ps : List String) :
    ∀ (t : List String) (x : String), x ∈ t → x ∈ addAll t ps := by
  induction ps with
  | nil => intro t x hx; exact hx
  | cons p ps ih =>
    intro t x hx
    rw [addAll_cons]
    exact ih _ x ((mem_insertUniq x p t).mpr (Or.inl hx))

theorem mem_addAll_right (ps : List String) :
    ∀ (t : List String) (x : String), x ∈ ps → x ∈ addAll t ps := by
  induction ps with
  | nil => intro t x hx; cases hx
  | cons p ps ih =>
    intro t x hx
    rw [addAll_cons]
    rcases List.mem_cons.mp hx with rfl | hx
    · exact mem_addAll_left ps _ x ((mem_insertUniq x x t).mpr (Or.inr rfl))
    · exact ih _ x hx

theorem dirsScan_ok_nodup (ds : List ManifestDir) :
    ∀ (t seen tr : List String), dirsScan ds t seen = some (.ok tr) →
      ((ds.map (fun d => d.dirname)).Nodup ∧ ∀ d ∈ ds, d.dirname ∉ seen) := by
  induction ds with
  | nil => intro t seen tr _; simp
  | cons d ds ih =>
    intro t seen tr h
    unfold dirsScan at h
    split at h
    · cases h
    · dsimp only at h
      split at h
      · simp at h
      · rename_i hmem
        obtain ⟨ihnd, ihseen⟩ := ih _ _ tr h
        constructor
        · rw [List.map_cons, List.nodup_cons]
          refine ⟨?_, ihnd⟩
          intro hdmem
          obtain ⟨d', hd', hdn⟩ := List.mem_map.mp hdmem
          have hns := ihseen d' hd'
          rw [hdn] at hns
          exact hns (List.mem_append.mpr (Or.inr (by simp)))
        · intro d' hd'
          rcases List.mem_cons.mp hd' with rfl | hd'
          · exact hmem
          · intro hc
            exact ihseen d' hd' (List.mem_append.mpr (Or.inl hc))

theorem dirsScan_nodup_ok (ds : List ManifestDir) :
    ∀ (t seen : List String) (r : Except Err (List String)),
      (ds.map (fun d => d.dirname)).Nodup →
      (∀ d ∈ ds, d.dirname ∉ seen) →
      dirsScan ds t seen = some r → ∃ tr, r = .ok tr := by
  induction ds with
  | nil =>
    intro t seen r _ _ h
    unfold dirsScan at h
    exact ⟨t, (Option.some.inj h).symm⟩
  | cons d ds ih =>
    intro t seen r hnd hseen h
    unfold dirsScan at h
    split at h
    · cases h
    · dsimp only at h
      split at h
      · rename_i hmem
        exact absurd hmem (hseen d (by simp))
      · rename_i hmem
        refine ih _ _ r ?_ ?_ h
        · rw [List.map_cons, List.nodup_cons] at hnd
          exact hnd.2
        · intro d' hd'
          rw [List.mem_append]
          rintro (hc | hc)
          · exact hseen d' (by simp [hd']) hc
          · simp only [List.mem_singleton] at hc
            rw [List.map_cons, List.nodup_cons] at hnd
            exact hnd.1 (List.mem_map.mpr ⟨d', hd', hc⟩)

theorem dirsScan_error_dup (ds : List ManifestDir) :
    ∀ (t seen : List String) (e : Err), dirsScan ds t seen = some (.error e) →
      ∃ s, e = .duplicateMount s := by
  induction ds with
  | nil =>
    intro t seen e h
    unfold dirsScan at h
    simp at h
  | cons d ds ih =>
    intro t seen e h
    unfold dirsScan at h
    split at h
    · cases h
    · dsimp only at h
      split at h
      · refine ⟨d.dirname, ?_⟩
        simp only [Option.some.injEq, Except.error.injEq] at h
        exact h.symm
      · exact ih _ _ e h

theorem dirsScan_tree_mono (ds : List ManifestDir) :
    ∀ (t seen tr : List String), dirsScan ds t seen = some (.ok tr) →
      ∀ x ∈ t, x ∈ tr := by
  induction ds with
  | nil =>
    intro t seen tr h x hx
    unfold dirsScan at h
    simp only [Option.some.injEq, Except.ok.injEq] at h
    rw [← h]
    exact hx
  | cons d ds ih =>
    intro t seen tr h x hx
    unfold dirsScan at h
    split at h
    · cases h
    · dsimp only at h
      split at h
      · simp at h
      · exact ih _ _ tr h x (mem_addAll_left _ t x hx)

theorem dirsScan_anc_mem (ds : List ManifestDir) :
    ∀ (t seen tr : List String), dirsScan ds t seen = some (.ok tr) →
      ∀ d ∈ ds, ∃ ps, ancestors (dirParent d.dirname) = some ps ∧
        ∀ x ∈ ps, x ∈ tr := by
  induction ds with
  | nil => intro t seen tr _ d hd; cases hd
  | cons d ds ih =>
    intro t seen tr h d' hd'
    unfold dirsScan at h
    split at h
    · cases h
    · rename_i ps hps
      dsimp only at h
      split at h
      · simp at h
      · rcases List.mem_cons.mp hd' with rfl | hd'
        · exact ⟨ps, hps, fun x hx =>
            dirsScan_tree_mono ds _ _ tr h x (mem_addAll_right ps t x hx)⟩
        · exact ih _ _ tr h d' hd'

theorem dirSkeleton_notLeaf_of_mount_in_anc (m : Manifest)
    (r : Except Err (List String)) (hr : m.DirSkeleton = some r)
    (hnd : (m.directories.map (fun d => d.dirname)).Nodup)
    (d0 : ManifestDir) (hd0 : d0 ∈ m.directories)
    (d1 : ManifestDir) (hd1 : d1 ∈ m.directories)
    (ps : List String) (hps : ancestors (dirParent d1.dirname) = some ps)
    (hmem : d0.dirname ∈ ps) :
    ∃ dn es, r = .error (.illegalMountNotLeaf dn es) := by
  unfold Manifest.DirSkeleton at hr
  split at hr
  · cases hr
  · split at hr
    · cases hr
    · rename_i e heq
      obtain ⟨tr', habs⟩ := dirsScan_nodup_ok m.directories _ _ _ hnd (by simp) heq
      cases habs
    · rename_i tree heq
      dsimp only at hr
      obtain ⟨ps', hps', hsub⟩ := dirsScan_anc_mem m.directories _ _ _ heq d1 hd1
      rw [hps] at hps'
      have hpse : ps = ps' := Option.some.inj hps'
      have htree : d0.dirname ∈ tree := hsub _ (hpse ▸ hmem)
      split at hr
      · rename_i d' hfind
        exact ⟨d'.dirname, _, (Option.some.inj hr).symm⟩
      · rename_i hfind
        have hnone := List.find?_eq_none.mp hfind d0 hd0
        simp only [decide_eq_true_eq] at hnone
        exact absurd htree hnone

/-- C3 counterexample: a manifest that contains mounts at `/A` and `/A/B` but
also a duplicated mount path `/X` fails with the duplicate-mount error, not
with the not-a-leaf error, because `DirSkeleton` checks duplicates inside the
directory loop and the leaf condition only afterwards. -/
theorem c3_nested_mount_counterexample :
    Manifest.DirSkeleton
      { files := [],
        directories := [mountAt "/X", mountAt "/X", mountAt "/A", mountAt "/A/B"] }
      = some (.error (.duplicateMount "/X")) := by decide

/-- C3 (amended): for every manifest containing directory entries that mount
`/A` and `/A/B` and whose mount paths are pairwise distinct, whenever
`DirSkeleton` returns at all it fails with the `IllegalMountNotLeaf` error,
because the ancestor mount's path appears in the derived tree of intermediate
directories; no skeleton list is returned. -/
theorem c3_nested_mount_amended (m : Manifest) (r : Except Err (List String))
    (hr : m.DirSkeleton = some r)
    (hnd : (m.directories.map (fun d => d.dirname)).Nodup)
    (hA : ∃ d ∈ m.directories, d.dirname = "/A")
    (hAB : ∃ d ∈ m.directories, d.dirname = "/A/B") :
    ∃ dn es, r = .error (.illegalMountNotLeaf dn es) := by
  obtain ⟨d0, hd0, hd0n⟩ := hA
  obtain ⟨d1, hd1, hd1n⟩ := hAB
  refine dirSkeleton_notLeaf_of_mount_in_anc m r hr hnd d0 hd0 d1 hd1
    ["/", "/A", "/A"] ?_ ?_
  · rw [hd1n]; decide
  · rw [hd0n]; decide

/-- Concrete instantiation of `c3_nested_mount_amended`. -/
theorem c3_nested_mount_amended_witness :
    ∃ dn es,
      (Except.error (Err.illegalMountNotLeaf "/A" ["/", "/A"]) :
          Except Err (List String)) = .error (.illegalMountNotLeaf dn es) :=
  c3_nested_mount_amended
    { files := [], directories := [mountAt "/A", mountAt "/A/B"] }
    (.error (.illegalMountNotLeaf "/A" ["/", "/A"]))
    (by decide) (by decide) (by decide) (by decide)

/-- C4 counterexample: a manifest with the duplicated mount path `/X` whose
file entry has the relative parent path `"A/B"` makes the Go `ancestors`
recursion diverge (`Dir "A" = "."` and `Dir "." = "."`) before the duplicate
check is reached, so `DirSkeleton` never returns at all — it does not fail
with the duplicate-mount error. -/
theorem c4_duplicate_mount_counterexample :
    Manifest.DirSkeleton
      { files := [fileAt "A/B"], directories := [mountAt "/X", mountAt "/X"] }
      = none := by decide

/-- C4 (amended): for every manifest containing two directory entries with
the same mount path, whenever `DirSkeleton` returns a result at all, that
result is the `DuplicateMount` error — in particular no skeleton is ever
returned for such a manifest. -/
theorem c4_duplicate_mount_amended (m : Manifest) (r : Except Err (List String))
    (hr : m.DirSkeleton = some r)
    (hdup : ¬ (m.directories.map (fun d => d.dirname)).Nodup) :
    ∃ s, r = .error (.duplicateMount s) := by
  unfold Manifest.DirSkeleton at hr
  split at hr
  · cases hr
  · split at hr
    · cases hr
    · rename_i e heq
      obtain ⟨s, hs⟩ := dirsScan_error_dup m.directories _ _ _ heq
      refine ⟨s, ?_⟩
      rw [← Option.some.inj hr, hs]
    · rename_i tree heq
      exact absurd (dirsScan_ok_nodup m.directories _ _ _ heq).1 hdup

/-- Concrete instantiation of `c4_duplicate_mount_amended`. -/
theorem c4_duplicate_mount_amended_witness :
    ∃ s, (Except.error (Err.duplicateMount "/X") : Except Err (List String))
      = .error (.duplicateMount s) :=
  c4_duplicate_mount_amended
    { files := [], directories := [mountAt "/X", mountAt "/X"] }
    (.error (.duplicateMount "/X")) (by decide) (by decide)

/-- C9 counterexample: on the manifest whose only directory entry mounts
`"/"`, `DirSkeleton` does fail, but with the `IllegalMountNotLeaf` error
(the root is always a node of the derived tree) — the loader has no
`InvalidMountPath` error at all. -/
theorem c9_root_mount_counterexample :
    Manifest.DirSkeleton { files := [], directories := [mountAt "/"] }
      = some (.error (.illegalMountNotLeaf "/" ["/"])) := by decide

/-- C9 (amended): a directory entry whose mount path is `"/"` is indeed
rejected, but not by a dedicated `InvalidMountPath` check: for every manifest
with pairwise-distinct mount paths containing such an entry, whenever
`DirSkeleton` returns at all it fails with the `IllegalMountNotLeaf` error
(the root `"/"` always appears in the derived tree), and no skeleton is
produced. -/
theorem c9_root_mount_amended (m : Manifest) (r : Except Err (List String))
    (hr : m.DirSkeleton = some r)
    (hnd : (m.directories.map (fun d => d.dirname)).Nodup)
    (hroot : ∃ d ∈ m.directories, d.dirname = "/") :
    ∃ dn es, r = .error (.illegalMountNotLeaf dn es) := by
  obtain ⟨d0, hd0, hd0n⟩ := hroot
  refine dirSkeleton_notLeaf_of_mount_in_anc m r hr hnd d0 hd0 d0 hd0 ["/"] ?_ ?_
  · rw [hd0n]; decide
  · rw [hd0n]; decide

/-- Concrete instantiation of `c9_root_mount_amended`. -/
theorem c9_root_mount_amended_witness :
    ∃ dn es,
      (Except.error (Err.illegalMountNotLeaf "/" ["/"]) :
          Except Err (List String)) = .error (.illegalMountNotLeaf dn es) :=
  c9_root_mount_amended
    { files := [], directories := [mountAt "/"] }
    (.error (.illegalMountNotLeaf "/" ["/"]))
    (by decide) (by decide) (by decide)

theorem splitOnSlash_ne_nil (s : List Char) : splitOnSlash s ≠ [] := by
  induction s with
  | nil => simp [splitOnSlash]
  | cons c cs ih =>
    unfold splitOnSlash
    by_cases hc : c = '/'
    · simp [hc]
    · simp only [hc, if_false, if_neg]
      cases h : splitOnSlash cs with
      | nil => simp
      | cons g gs => simp

theorem splitOnSlash_no_slash (s : List Char) :
    ∀ c ∈ splitOnSlash s, '/' ∉ c := by
  induction s with
  | nil => intro c hc; simp [splitOnSlash] at hc; simp [hc]
  | cons a s ih =>
    intro c hc
    unfold splitOnSlash at hc
    by_cases ha : a = '/'
    · rw [if_pos ha] at hc
      rcases List.mem_cons.mp hc with rfl | hc
      · simp
      · exact ih c hc
    · rw [if_neg ha] at hc
      cases h : splitOnSlash s with
      | nil => exact absurd h (splitOnSlash_ne_nil s)
      | cons g gs =>
        rw [h] at hc
        rcases List.mem_cons.mp hc with rfl | hc
        · intro hmem
          rcases List.mem_cons.mp hmem with h1 | h1
          · exact ha h1.symm
          · exact ih g (h ▸ List.mem_cons_self g gs) h1
        · exact ih c (h ▸ List.mem_cons.mpr (Or.inr hc))

theorem splitOnSlash_slash_cons (t : List Char) :
    splitOnSlash ('/' :: t) = [] :: splitOnSlash t := rfl

theorem splitOnSlash_no_slash_id (c : List Char) (h : '/' ∉ c) :
    splitOnSlash c = [c] := by
  induction c with
  | nil => rfl
  | cons a c ih =>
    have ha : ¬ (a = '/') := fun hh => h (by simp [hh])
    unfold splitOnSlash
    rw [if_neg ha, ih (fun hh => h (List.mem_cons.mpr (Or.inr hh)))]

theorem splitOnSlash_comp_append (c t : List Char) (h : '/' ∉ c) :
    splitOnSlash (c ++ '/' :: t) = c :: splitOnSlash t := by
  induction c with
  | nil => simpa using splitOnSlash_slash_cons t
  | cons a c ih =>
    have ha : ¬ (a = '/') := fun hh => h (by simp [hh])
    have ih' := ih (fun hh => h (List.mem_cons.mpr (Or.inr hh)))
    have : (a :: c) ++ '/' :: t = a :: (c ++ '/' :: t) := rfl
    rw [this]
    simp only [splitOnSlash, ha, if_false, ih']

theorem splitOnSlash_append_slash (t : List Char) :
    splitOnSlash (t ++ ['/']) = splitOnSlash t ++ [[]] := by
  induction t with
  | nil => rfl
  | cons a t ih =>
    have : (a :: t) ++ ['/'] = a :: (t ++ ['/']) := rfl
    rw [this]
    by_cases ha : a = '/'
    · subst ha
      rw [splitOnSlash_slash_cons, splitOnSlash_slash_cons, ih]
      rfl
    · unfold splitOnSlash
      rw [if_neg ha, if_neg ha, ih]
      cases h : splitOnSlash t with
      | nil => exact absurd h (splitOnSlash_ne_nil t)
      | cons g gs => simp

theorem joinSlash_ne_nil (cs : List (List Char)) (hne : cs ≠ [])
    (h : ∀ c ∈ cs, c ≠ []) : joinSlash cs ≠ [] := by
  cases cs with
  | nil => exact absurd rfl hne
  | cons c cs =>
    cases cs with
    | nil => exact h c (by simp)
    | cons c' cs' =>
      show c ++ '/' :: joinSlash (c' :: cs') ≠ []
      simp

theorem joinSlash_append_single (xs : List (List Char)) (c : List Char)
    (hne : xs ≠ []) :
    joinSlash (xs ++ [c]) = joinSlash xs ++ '/' :: c := by
  induction xs with
  | nil => exact absurd rfl hne
  | cons x xs ih =>
    cases xs with
    | nil => rfl
    | cons x' xs' =>
      have h1 : (x :: x' :: xs') ++ [c] = x :: ((x' :: xs') ++ [c]) := rfl
      rw [h1]
      show x ++ '/' :: joinSlash ((x' :: xs') ++ [c]) =
        (x ++ '/' :: joinSlash (x' :: xs')) ++ '/' :: c
      rw [ih (by simp)]
      simp

theorem splitOnSlash_join (cs : List (List Char)) (hne : cs ≠ [])
    (hns : ∀ c ∈ cs, '/' ∉ c) :
    splitOnSlash (joinSlash cs) = cs := by
  induction cs with
  | nil => exact absurd rfl hne
  | cons c cs ih =>
    cases cs with
    | nil => exact splitOnSlash_no_slash_id c (hns c (by simp))
    | cons c' cs' =>
      show splitOnSlash (c ++ '/' :: joinSlash (c' :: cs')) = _
      rw [splitOnSlash_comp_append c _ (hns c (by simp))]
      rw [ih (by simp) (fun d hd => hns d (List.mem_cons.mpr (Or.inr hd)))]

theorem cleanPush_nil_comp (rooted : Bool) (acc : List (List Char)) :
    cleanPush rooted acc [] = acc := rfl

theorem cleanPush_dot (rooted : Bool) (acc : List (List Char)) :
    cleanPush rooted acc ['.'] = acc := rfl

theorem cleanPush_dotdot_nil (rooted : Bool) :
    cleanPush rooted [] ['.', '.'] = (if rooted = true then [] else [['.', '.']]) := rfl

theorem cleanPush_dotdot_cons (rooted : Bool) (b : List Char)
    (rest : List (List Char)) :
    cleanPush rooted (b :: rest) ['.', '.'] =
      (if b = ['.', '.'] then ['.', '.'] :: b :: rest else rest) := rfl

theorem cleanPush_other (rooted : Bool) (acc : List (List Char)) (c : List Char)
    (h1 : ¬ c = []) (h2 : ¬ c = ['.']) (h3 : ¬ c = ['.', '.']) :
    cleanPush rooted acc c = c :: acc := by
  unfold cleanPush
  rw [if_neg h1, if_neg h2, if_neg h3]

theorem cleanPush_plain (rooted : Bool) (acc : List (List Char)) (c : List Char)
    (hc : '/' ∉ c) (hacc : ∀ a ∈ acc, plainComp a) (hr : rooted = true) :
    ∀ a ∈ cleanPush rooted acc c, plainComp a := by
  subst hr
  by_cases h1 : c = []
  · subst h1; rw [cleanPush_nil_comp]; exact hacc
  by_cases h2 : c = ['.']
  · subst h2; rw [cleanPush_dot]; exact hacc
  by_cases h3 : c = ['.', '.']
  · subst h3
    cases acc with
    | nil =>
      rw [cleanPush_dotdot_nil]
      simp
    | cons b rest =>
      rw [cleanPush_dotdot_cons]
      have hb : plainComp b := hacc b (by simp)
      rw [if_neg hb.2.2.1]
      intro a ha
      exact hacc a (List.mem_cons.mpr (Or.inr ha))
  · rw [cleanPush_other true acc c h1 h2 h3]
    intro a ha
    rcases List.mem_cons.mp ha with rfl | ha
    · exact ⟨h1, h2, h3, hc⟩
    · exact hacc a ha

theorem foldl_cleanPush_plain (cs : List (List Char)) :
    ∀ acc, (∀ c ∈ cs, '/' ∉ c) → (∀ a ∈ acc, plainComp a) →
      ∀ a ∈ cs.foldl (cleanPush true) acc, plainComp a := by
  induction cs with
  | nil => intro acc _ hacc a ha; exact hacc a ha
  | cons c cs ih =>
    intro acc hcs hacc a ha
    rw [List.foldl_cons] at ha
    exact ih _ (fun d hd => hcs d (List.mem_cons.mpr (Or.inr hd)))
      (cleanPush_plain true acc c (hcs c (by simp)) hacc rfl) a ha

theorem processComps_plain (cs : List (List Char)) (hcs : ∀ c ∈ cs, '/' ∉ c) :
    ∀ a ∈ processComps true cs, plainComp a := by
  intro a ha
  unfold processComps at ha
  rw [List.mem_reverse] at ha
  exact foldl_cleanPush_plain cs [] hcs (by simp) a ha

theorem foldl_cleanPush_id (rooted : Bool) (cs : List (List Char)) :
    (∀ c ∈ cs, plainComp c) →
      ∀ acc, cs.foldl (cleanPush rooted) acc = cs.reverse ++ acc := by
  induction cs with
  | nil => intro _ acc; simp
  | cons c cs ih =>
    intro hcs acc
    rw [List.foldl_cons]
    have hc := hcs c (by simp)
    have hstep : cleanPush rooted acc c = c :: acc := by
      unfold cleanPush
      rw [if_neg hc.1, if_neg hc.2.1, if_neg hc.2.2.1]
    rw [hstep, ih (fun d hd => hcs d (List.mem_cons.mpr (Or.inr hd)))]
    simp

theorem processComps_cons_empty (rooted : Bool) (cs : List (List Char)) :
    processComps rooted ([] :: cs) = processComps rooted cs := rfl

theorem processComps_append_empty (rooted : Bool) (cs : List (List Char)) :
    processComps rooted (cs ++ [[]]) = processComps rooted cs := by
  unfold processComps
  rw [List.foldl_append]
  rfl

theorem processComps_id (rooted : Bool) (cs : List (List Char))
    (hcs : ∀ c ∈ cs, plainComp c) : processComps rooted cs = cs := by
  unfold processComps
  rw [foldl_cleanPush_id rooted cs hcs []]
  simp

theorem cleanL_rooted_eq (s : List Char) (h : s.head? = some '/') :
    cleanL s = renderComps true (processComps true (splitOnSlash s)) := by
  cases s with
  | nil => cases h
  | cons c cs =>
    have hc : c = '/' := by simpa using h
    subst hc
    unfold cleanL
    simp

theorem renderComps_true_head (cs : List (List Char)) :
    (renderComps true cs).head? = some '/' := by
  cases cs with
  | nil => rfl
  | cons c cs' => rfl

theorem cleanL_render (cs : List (List Char)) (hcs : ∀ c ∈ cs, plainComp c) :
    cleanL (renderComps true cs) = renderComps true cs := by
  cases cs with
  | nil => decide
  | cons c cs' =>
    have hrend : renderComps true (c :: cs') = '/' :: joinSlash (c :: cs') := rfl
    rw [hrend]
    rw [cleanL_rooted_eq _ (by simp)]
    rw [splitOnSlash_slash_cons]
    rw [splitOnSlash_join (c :: cs') (by simp) (fun d hd => (hcs d hd).2.2.2)]
    rw [processComps_cons_empty, processComps_id true _ hcs]
    exact hrend

theorem cleanL_idem_rooted (s : List Char) (h : s.head? = some '/') :
    cleanL (cleanL s) = cleanL s := by
  rw [cleanL_rooted_eq s h]
  exact cleanL_render _ (processComps_plain _ (splitOnSlash_no_slash s))

theorem clean_idem_rooted (p : String) (h : p.data.head? = some '/') :
    clean (clean p) = clean p := by
  unfold clean
  congr 1
  exact cleanL_idem_rooted p.data h

theorem takeWhile_append_slash (u v : List Char) (hu : '/' ∉ u) :
    (u ++ '/' :: v).takeWhile (fun c => ¬ (c = '/')) = u := by
  induction u with
  | nil => simp
  | cons a u ih =>
    have ha : a ≠ '/' := fun h => hu (by simp [h])
    have ih' := ih (fun h => hu (List.mem_cons.mpr (Or.inr h)))
    simp only [List.cons_append, List.takeWhile_cons]
    rw [if_pos (by simp [ha]), ih']

theorem dropWhile_append_slash (u v : List Char) (hu : '/' ∉ u) :
    (u ++ '/' :: v).dropWhile (fun c => ¬ (c = '/')) = '/' :: v := by
  induction u with
  | nil => simp
  | cons a u ih =>
    have ha : a ≠ '/' := fun h => hu (by simp [h])
    have ih' := ih (fun h => hu (List.mem_cons.mpr (Or.inr h)))
    simp only [List.cons_append, List.dropWhile_cons]
    rw [if_pos (by simp [ha]), ih']

theorem splitPathL_append (u v : List Char) (hv : '/' ∉ v) :
    splitPathL (u ++ '/' :: v) = (u ++ ['/'], v) := by
  unfold splitPathL
  have hrev : (u ++ '/' :: v).reverse = v.reverse ++ '/' :: u.reverse := by simp
  have hv' : '/' ∉ v.reverse := by simpa using hv
  rw [hrev, takeWhile_append_slash _ _ hv', dropWhile_append_slash _ _ hv']
  simp

theorem renderComps_true_ne (cs : List (List Char)) (hne : cs ≠ [])
    (hcomps : ∀ d ∈ cs, d ≠ []) :
    renderComps true cs ≠ [] ∧ renderComps true cs ≠ ['/'] := by
  cases cs with
  | nil => exact absurd rfl hne
  | cons c0 cs' =>
    constructor
    · show '/' :: joinSlash (c0 :: cs') ≠ []
      simp
    · show '/' :: joinSlash (c0 :: cs') ≠ ['/']
      intro h
      have hj : joinSlash (c0 :: cs') = [] := by simpa using h
      exact joinSlash_ne_nil _ (by simp) hcomps hj

theorem dirL_render (cs : List (List Char)) (c : List Char)
    (hcs : ∀ d ∈ cs, plainComp d) (hc : plainComp c) :
    dirL (renderComps true (cs ++ [c])) = renderComps true cs := by
  cases cs with
  | nil =>
    rw [show ([] : List (List Char)) ++ [c] = [c] from rfl]
    unfold dirL
    rw [show renderComps true [c] = [] ++ '/' :: c from rfl]
    rw [splitPathL_append [] c hc.2.2.2]
    show cleanL ['/'] = renderComps true []
    decide
  | cons c0 cs' =>
    have hxs : c0 :: cs' ≠ [] := by simp
    have hrend : renderComps true ((c0 :: cs') ++ [c]) =
        ('/' :: joinSlash (c0 :: cs')) ++ '/' :: c := by
      show '/' :: joinSlash ((c0 :: cs') ++ [c]) = _
      rw [joinSlash_append_single _ c hxs]
      simp
    rw [hrend]
    unfold dirL
    rw [splitPathL_append _ _ hc.2.2.2]
    show cleanL ('/' :: (joinSlash (c0 :: cs') ++ ['/'])) = _
    rw [cleanL_rooted_eq _ (by simp)]
    rw [splitOnSlash_slash_cons, splitOnSlash_append_slash]
    rw [splitOnSlash_join (c0 :: cs') hxs (fun d hd => (hcs d hd).2.2.2)]
    rw [processComps_cons_empty, processComps_append_empty,
      processComps_id true _ hcs]

theorem renderComps_length_lt (cs : List (List Char)) (c : List Char)
    (hc : c ≠ []) :
    (renderComps true cs).length < (renderComps true (cs ++ [c])).length := by
  have hcl : 0 < c.length := List.length_pos.mpr hc
  cases cs with
  | nil =>
    show (['/'] : List Char).length < ('/' :: joinSlash [c]).length
    have hj : joinSlash [c] = c := rfl
    rw [hj]
    simp only [List.length_cons, List.length_nil]
    omega
  | cons c0 cs' =>
    show ('/' :: joinSlash (c0 :: cs')).length <
      ('/' :: joinSlash ((c0 :: cs') ++ [c])).length
    rw [joinSlash_append_single _ c (by simp)]
    simp only [List.length_cons, List.length_append]
    omega

theorem ancRenderRev_ne_nil (rs : List (List Char)) : ancRenderRev rs ≠ [] := by
  cases rs with
  | nil => simp [ancRenderRev]
  | cons c rs' => simp [ancRenderRev]

theorem ancRenderRev_head (rs : List (List Char)) :
    (ancRenderRev rs).head? = some ['/'] := by
  induction rs with
  | nil => rfl
  | cons c rs' ih =>
    show (ancRenderRev rs' ++ [renderComps true (c :: rs').reverse]).head? = _
    obtain ⟨a, l', he⟩ := List.exists_cons_of_ne_nil (ancRenderRev_ne_nil rs')
    rw [he]
    rw [he] at ih
    simpa using ih

theorem ancRenderRev_getLast (rs : List (List Char)) :
    (ancRenderRev rs).getLast? = some (renderComps true rs.reverse) := by
  cases rs with
  | nil => rfl
  | cons c rs' =>
    show (ancRenderRev rs' ++ [renderComps true (c :: rs').reverse]).getLast? = _
    rw [List.getLast?_concat]

theorem ancestorsL_render (rs : List (List Char)) :
    (∀ c ∈ rs, plainComp c) →
    ∀ fuel, (renderComps true rs.reverse).length + 1 ≤ fuel →
      ancestorsL fuel (renderComps true rs.reverse) = some (ancRenderRev rs) := by
  induction rs with
  | nil =>
    intro _ fuel hf
    have hlen : (renderComps true ([] : List (List Char)).reverse).length = 1 := rfl
    rw [show ([] : List (List Char)).reverse = [] from rfl] at hf ⊢
    cases fuel with
    | zero => omega
    | succ f =>
      show ancestorsL (f + 1) ['/'] = some [['/']]
      unfold ancestorsL
      rw [if_pos (Or.inr rfl)]
  | cons c rs' ih =>
    intro hp fuel hf
    have hc := hp c (by simp)
    have hrs' : ∀ d ∈ rs', plainComp d := fun d hd => hp d (by simp [hd])
    have hrev : (c :: rs').reverse = rs'.reverse ++ [c] := by simp
    have hplainrev : ∀ d ∈ rs'.reverse ++ [c], plainComp d := by
      intro d hd
      rcases List.mem_append.mp hd with hd | hd
      · exact hrs' d (List.mem_reverse.mp hd)
      · rw [List.mem_singleton.mp hd]; exact hc
    have hplainrev' : ∀ d ∈ rs'.reverse, plainComp d :=
      fun d hd => hrs' d (List.mem_reverse.mp hd)
    have hne := renderComps_true_ne (rs'.reverse ++ [c]) (by simp)
      (fun d hd => (hplainrev d hd).1)
    have hlt := renderComps_length_lt rs'.reverse c hc.1
    rw [hrev] at hf ⊢
    cases fuel with
    | zero => omega
    | succ f =>
      unfold ancestorsL
      rw [if_neg (by push_neg; exact hne)]
      rw [dirL_render rs'.reverse c hplainrev' hc]
      rw [ih hrs' f (by omega)]
      show some (ancRenderRev rs' ++ [cleanL (renderComps true (rs'.reverse ++ [c]))])
        = some (ancRenderRev (c :: rs'))
      rw [cleanL_render _ hplainrev]
      show _ = some (ancRenderRev rs' ++ [renderComps true (c :: rs').reverse])
      rw [hrev]

theorem ancRenderRev_chain (rs : List (List Char)) (hp : ∀ c ∈ rs, plainComp c) :
    List.Chain' (fun a b => dirL b = a) (ancRenderRev rs) := by
  induction rs with
  | nil => simp [ancRenderRev]
  | cons c rs' ih =>
    show List.Chain' _ (ancRenderRev rs' ++ [renderComps true (c :: rs').reverse])
    rw [List.chain'_append]
    refine ⟨ih (fun d hd => hp d (by simp [hd])), List.chain'_singleton _, ?_⟩
    intro x hx y hy
    rw [ancRenderRev_getLast] at hx
    simp only [Option.mem_def, Option.some.injEq, List.head?_cons] at hx hy
    subst hx
    subst hy
    rw [show (c :: rs').reverse = rs'.reverse ++ [c] from by simp]
    exact dirL_render rs'.reverse c
      (fun d hd => hp d (List.mem_cons.mpr (Or.inr (List.mem_reverse.mp hd))))
      (hp c (by simp))

/-- C10 (amended): restricted to canonical absolute paths — for every `p`
other than `""` and `"/"` that starts with `'/'` and is a fixpoint of
`filepath.Clean`, `ancestors p` terminates and returns a list that begins
with `"/"`, ends with `p` itself (so the path itself is returned in addition
to its proper ancestors, unlike the examples in the function's own comment),
and in which every element is the `filepath.Dir` parent of its successor; and
`ancestors "" = ancestors "/" = ["/"]`.  (The `Dir`-chain condition fails for
non-canonical absolute inputs such as `"/A/."`.) -/
theorem c10_ancestors_amended (p : String)
    (hroot : p.data.head? = some '/') (hne : ¬ (p = "/"))
    (hcanon : clean p = p) :
    (ancestors "" = some ["/"]) ∧ (ancestors "/" = some ["/"]) ∧
    ∃ l, ancestors p = some l ∧ l.head? = some "/" ∧ l.getLast? = some p ∧
      List.Chain' (fun a b => dirS b = a) l := by
  refine ⟨by decide, by decide, ?_⟩
  have hdata : cleanL p.data = p.data := congrArg String.data hcanon
  obtain ⟨cs, hplain, hrender⟩ :
      ∃ cs, (∀ a ∈ cs, plainComp a) ∧ p.data = renderComps true cs := by
    refine ⟨processComps true (splitOnSlash p.data),
      processComps_plain _ (splitOnSlash_no_slash _), ?_⟩
    conv_lhs => rw [← hdata]
    exact cleanL_rooted_eq p.data hroot
  have hrender' : p.data = renderComps true cs.reverse.reverse := by
    rw [List.reverse_reverse]
    exact hrender
  have hplain' : ∀ d ∈ cs.reverse, plainComp d :=
    fun d hd => hplain d (List.mem_reverse.mp hd)
  refine ⟨(ancRenderRev cs.reverse).map (fun d => (⟨d⟩ : String)), ?_, ?_, ?_, ?_⟩
  · unfold ancestors
    rw [hrender']
    rw [ancestorsL_render cs.reverse hplain' _ (le_refl _)]
    rfl
  · rw [List.head?_map, ancRenderRev_head]
    rfl
  · rw [List.getLast?_map, ancRenderRev_getLast, ← hrender']
    rfl
  · rw [List.chain'_map]
    refine (ancRenderRev_chain cs.reverse hplain').imp ?_
    intro a b hab
    show dirS ⟨b⟩ = ⟨a⟩
    unfold dirS
    exact congrArg (fun l => (⟨l⟩ : String)) hab

/-- Concrete instantiation of `c10_ancestors_amended` at the canonical path
`/A/B`. -/
theorem c10_ancestors_amended_witness :
    (ancestors "" = some ["/"]) ∧ (ancestors "/" = some ["/"]) ∧
    ∃ l, ancestors "/A/B" = some l ∧ l.head? = some "/" ∧
      l.getLast? = some "/A/B" ∧ List.Chain' (fun a b => dirS b = a) l :=
  c10_ancestors_amended "/A/B" (by decide) (by decide) (by decide)

/-- C10 counterexample: on the absolute but non-canonical path `"/A/."`,
`ancestors` returns `["/", "/A", "/A"]` (it begins with `"/"` and ends with
`filepath.Clean "/A/." = "/A"`), but the successive-`Dir` property claimed
for the whole list fails: `Dir "/A" = "/" ≠ "/A"`. -/
theorem c10_ancestors_counterexample :
    ancestors "/A/." = some ["/", "/A", "/A"] ∧
      ¬ List.Chain' (fun a b => dirS b = a) ["/", "/A", "/A"] := by
  constructor
  · decide
  · intro h
    have h2 := (List.chain'_cons.mp h).2
    have h3 := (List.chain'_cons.mp h2).1
    have h4 : dirS "/A" = "/" := by decide
    rw [h4] at h3
    exact absurd h3 (by decide)

theorem roundtrip_file (fl : ManifestFile) :
    unmarshalFile (marshalFile fl) = some fl := by
  obtain ⟨pid, fid, par, fn, sz, ct, mt⟩ := fl
  by_cases h1 : fn = "" <;> by_cases h2 : sz = 0 <;>
    by_cases h3 : ct = 0 <;> by_cases h4 : mt = 0 <;>
    simp [marshalFile, unmarshalFile, decStrField, decIntField, getField,
      List.find?_cons, h1, h2, h3, h4]

theorem roundtrip_dir (d : ManifestDir) :
    unmarshalDir (marshalDir d) = some d := by
  obtain ⟨pid, fo, dn, ct, mt⟩ := d
  by_cases h3 : ct = 0 <;> by_cases h4 : mt = 0 <;>
    simp [marshalDir, unmarshalDir, decStrField, decIntField, getField,
      List.find?_cons, h3, h4]

theorem mapMO_roundtrip {α β : Type} (f : α → β) (g : β → Option α)
    (h : ∀ a, g (f a) = some a) (l : List α) :
    mapMO g (l.map f) = some l := by
  induction l with
  | nil => rfl
  | cons a l ih => simp [mapMO, h a, ih]

theorem roundtrip_manifest (m : Manifest) :
    unmarshalManifest (marshalManifest m) = some m := by
  obtain ⟨fls, ds⟩ := m
  simp [marshalManifest, unmarshalManifest, decArrField, getField,
    List.find?_cons, mapMO_roundtrip marshalFile unmarshalFile roundtrip_file,
    mapMO_roundtrip marshalDir unmarshalDir roundtrip_dir]

/-- C7: serializing a manifest to JSON and parsing it back is the identity on
every manifest (no file or directory entry and no field is lost), so for
every manifest that validates, the full `ReadManifest` pipeline
(parse, validate, clean) yields exactly `Clean m`, and `Clean` is idempotent
on the result (all validated paths are slash-prefixed, and `filepath.Clean`
is idempotent on rooted paths). -/
theorem c7_roundtrip (m : Manifest) (hv : m.Validate = .ok ()) :
    unmarshalManifest (marshalManifest m) = some m ∧
    ReadManifestJ (marshalManifest m) = .ok m.Clean ∧
    m.Clean.Clean = m.Clean := by
  refine ⟨roundtrip_manifest m, ?_, ?_⟩
  · simp [ReadManifestJ, roundtrip_manifest m, hv]
  · have hok := (validate_ok_iff m).mp hv
    have hfileIdem : ∀ fl ∈ m.files, clean (clean fl.parent) = clean fl.parent := by
      intro fl hfl
      have h := (validateDirName_ok_iff fl.parent).mp (hok.1 fl hfl).2.2
      exact clean_idem_rooted fl.parent h.2
    have hdirIdem : ∀ d ∈ m.directories, clean (clean d.dirname) = clean d.dirname := by
      intro d hd
      have h := (validateDirName_ok_iff d.dirname).mp (hok.2 d hd).2
      exact clean_idem_rooted d.dirname h.2
    simp only [Manifest.Clean, List.map_map]
    refine congrArg₂ Manifest.mk ?_ ?_
    · refine List.map_congr_left ?_
      intro fl hfl
      simp [Function.comp, hfileIdem fl hfl]
    · refine List.map_congr_left ?_
      intro d hd
      simp [Function.comp, hdirIdem d hd]

/-- Concrete instantiation of `c7_roundtrip` on a valid manifest with
non-canonical paths. -/
theorem c7_roundtrip_witness :
    unmarshalManifest (marshalManifest mC7W) = some mC7W ∧
    ReadManifestJ (marshalManifest mC7W) = .ok mC7W.Clean ∧
    mC7W.Clean.Clean = mC7W.Clean :=
  c7_roundtrip mC7W (by decide)

theorem mem_collect {α : Type} (key : α → String) (cond : α → Prop)
    [DecidablePred cond] (l : List α) :
    ∀ (acc : List String) (x : String),
      (x ∈ l.foldl (fun acc a => if cond a then insertUniq acc (key a) else acc) acc ↔
        x ∈ acc ∨ ∃ a ∈ l, key a = x ∧ cond a) := by
  induction l with
  | nil => intro acc x; simp
  | cons a l ih =>
    intro acc x
    rw [List.foldl_cons]
    by_cases hc : cond a
    · rw [if_pos hc, ih, mem_insertUniq]
      constructor
      · rintro ((hx | rfl) | ⟨b, hb, hkb, hcb⟩)
        · exact Or.inl hx
        · exact Or.inr ⟨a, by simp, rfl, hc⟩
        · exact Or.inr ⟨b, List.mem_cons.mpr (Or.inr hb), hkb, hcb⟩
      · rintro (hx | ⟨b, hb, hkb, hcb⟩)
        · exact Or.inl (Or.inl hx)
        · rcases List.mem_cons.mp hb with rfl | hb
          · exact Or.inl (Or.inr hkb.symm)
          · exact Or.inr ⟨b, hb, hkb, hcb⟩
    · rw [if_neg hc, ih]
      constructor
      · rintro (hx | ⟨b, hb, hkb, hcb⟩)
        · exact Or.inl hx
        · exact Or.inr ⟨b, List.mem_cons.mpr (Or.inr hb), hkb, hcb⟩
      · rintro (hx | ⟨b, hb, hkb, hcb⟩)
        · exact Or.inl hx
        · rcases List.mem_cons.mp hb with rfl | hb
          · exact absurd hcb hc
          · exact Or.inr ⟨b, hb, hkb, hcb⟩

theorem mem_missingFileIds (m : Manifest) (x : String) :
    x ∈ missingFileIds m ↔
      ∃ fl ∈ m.files, fl.fileId = x ∧ missingFileInfo fl = true := by
  unfold missingFileIds
  have h := mem_collect (fun fl => fl.fileId)
    (fun fl => missingFileInfo fl = true) m.files [] x
  simpa using h

theorem mem_missingProjIds (m : Manifest) (x : String) :
    x ∈ missingProjIds m ↔
      ∃ d ∈ m.directories, d.projId = x ∧
        (d.ctimeMillisec = 0 ∨ d.mtimeMillisec = 0) := by
  unfold missingProjIds
  have h := mem_collect (fun d => d.projId)
    (fun d => d.ctimeMillisec = 0 ∨ d.mtimeMillisec = 0) m.directories [] x
  simpa using h

theorem describeProjects_mem (descProj : String → Except String DxDescribePrj)
    (hecho : ∀ pId p, descProj pId = .ok p → p.id = pId) :
    ∀ (ids : List String) (acc f : String → Option DxDescribePrj),
      describeProjects descProj ids acc = .ok f →
      ∀ k, (f k).isSome = true → (acc k).isSome = true ∨ k ∈ ids := by
  intro ids
  induction ids with
  | nil =>
    intro acc f h k hk
    left
    rw [Except.ok.inj h]
    exact hk
  | cons pId rest ih =>
    intro acc f h k hk
    unfold describeProjects at h
    split at h
    · cases h
    · rename_i pDesc hdesc
      rcases ih _ f h k hk with hacc | hmem
      · by_cases hkid : k = pDesc.id
        · right
          rw [hecho pId pDesc hdesc] at hkid
          simp [hkid]
        · left
          simpa [hkid] using hacc
      · exact Or.inr (List.mem_cons.mpr (Or.inr hmem))

/-- C8 counterexample: with a bulk response covering nothing and a project
describe that correctly echoes `project-1` with times `(11, 13)`, the
complete directory entry `/B` (times `(5, 7)`) of `mC8` is overwritten to
`(11, 13)` by `FillInMissingFields`, because it shares its project id with
the incomplete entry `/A`; it is not left unchanged as the claim states. -/
theorem c8_fill_counterexample :
    FillInMissingFields mC8 bulkC8 projC8 =
      .ok { files := [],
            directories :=
              [{ projId := "project-1", folder := "/", dirname := "/A",
                 ctimeMillisec := 11, mtimeMillisec := 13 },
               { projId := "project-1", folder := "/", dirname := "/B",
                 ctimeMillisec := 11, mtimeMillisec := 13 }] } ∧
    mC8.directories[1]? =
      some { projId := "project-1", folder := "/", dirname := "/B",
             ctimeMillisec := 5, mtimeMillisec := 7 } := by
  constructor <;> decide

/-- C8 (amended): `FillInMissingFields` queries the bulk describe exactly for
the set of file ids missing one of filename/size/ctime/mtime, and the project
describe exactly for the projects of directory entries missing ctime or
mtime; provided the bulk response covers only queried ids and the project
describe echoes the queried id, a complete file entry is left unchanged
whenever no file entry with the same file id is missing details, and a
directory entry is left unchanged whenever no directory entry of the same
project is missing ctime or mtime.  (Without those same-id provisos the
original claim is false: the write-back overwrites size/ctime/mtime of every
file whose id is in the response and both times of every directory whose
project was described.) -/
theorem c8_fill_amended (m : Manifest)
    (descBulk : List String → Except String (String → Option DxDescribeDataObject))
    (descProj : String → Except String DxDescribePrj)
    (hbulk : ∀ ids f, descBulk ids = .ok f → ∀ x, (f x).isSome = true → x ∈ ids)
    (hecho : ∀ pId p, descProj pId = .ok p → p.id = pId)
    (m' : Manifest) (hout : FillInMissingFields m descBulk descProj = .ok m') :
    (∀ x, x ∈ missingFileIds m ↔
        ∃ fl ∈ m.files, fl.fileId = x ∧ missingFileInfo fl = true) ∧
    (∀ x, x ∈ missingProjIds m ↔
        ∃ d ∈ m.directories, d.projId = x ∧
          (d.ctimeMillisec = 0 ∨ d.mtimeMillisec = 0)) ∧
    (∀ (i : Nat) (fl : ManifestFile), m.files[i]? = some fl →
      missingFileInfo fl = false →
      (∀ fl2 ∈ m.files, fl2.fileId = fl.fileId → missingFileInfo fl2 = false) →
      m'.files[i]? = some fl) ∧
    (∀ (i : Nat) (d : ManifestDir), m.directories[i]? = some d →
      (∀ d2 ∈ m.directories, d2.projId = d.projId →
        (¬ (d2.ctimeMillisec = 0) ∧ ¬ (d2.mtimeMillisec = 0))) →
      m'.directories[i]? = some d) := by
  cases hbulkeq : descBulk (missingFileIds m) with
  | error e =>
    unfold FillInMissingFields at hout
    rw [hbulkeq] at hout
    simp at hout
  | ok dataObjs =>
    cases hprojeq : describeProjects descProj (missingProjIds m) (fun _ => none) with
    | error e =>
      unfold FillInMissingFields at hout
      rw [hbulkeq, hprojeq] at hout
      simp at hout
    | ok projDescs =>
      unfold FillInMissingFields at hout
      rw [hbulkeq, hprojeq] at hout
      simp only [Except.ok.injEq] at hout
      have hfiles : m'.files = m.files.map (fillFile dataObjs) := by
        rw [← hout]
      have hdirs : m'.directories = m.directories.map (fillDir projDescs) := by
        rw [← hout]
      refine ⟨fun x => mem_missingFileIds m x, fun x => mem_missingProjIds m x,
        ?_, ?_⟩
      · intro i fl hget hmiss hall
        rw [hfiles, List.getElem?_map, hget]
        have hnone : dataObjs fl.fileId = none := by
          cases hd : dataObjs fl.fileId with
          | none => rfl
          | some v =>
            exfalso
            have hsome : (dataObjs fl.fileId).isSome = true := by rw [hd]; rfl
            have hin := hbulk _ _ hbulkeq fl.fileId hsome
            obtain ⟨fl2, hfl2, hid, hm2⟩ := (mem_missingFileIds m fl.fileId).mp hin
            have hzero := hall fl2 hfl2 hid
            rw [hzero] at hm2
            cases hm2
        simp [fillFile, hnone]
      · intro i d hget hall
        rw [hdirs, List.getElem?_map, hget]
        have hnone : projDescs d.projId = none := by
          cases hd : projDescs d.projId with
          | none => rfl
          | some v =>
            exfalso
            have hsome : (projDescs d.projId).isSome = true := by rw [hd]; rfl
            rcases describeProjects_mem descProj hecho _ _ _ hprojeq d.projId hsome
              with habs | hin
            · simp at habs
            · obtain ⟨d2, hd2, hid, hm2⟩ := (mem_missingProjIds m d.projId).mp hin
              have h2 := hall d2 hd2 hid
              rcases hm2 with h0 | h0
              · exact h2.1 h0
              · exact h2.2 h0
        simp [fillDir, hnone]

/-- Concrete instantiation of `c8_fill_amended` on `mC8` with the
well-behaved oracles `bulkC8` / `projC8`. -/
theorem c8_fill_amended_witness :
    (∀ x, x ∈ missingFileIds mC8 ↔
        ∃ fl ∈ mC8.files, fl.fileId = x ∧ missingFileInfo fl = true) ∧
    (∀ x, x ∈ missingProjIds mC8 ↔
        ∃ d ∈ mC8.directories, d.projId = x ∧
          (d.ctimeMillisec = 0 ∨ d.mtimeMillisec = 0)) ∧
    (∀ (i : Nat) (fl : ManifestFile), mC8.files[i]? = some fl →
      missingFileInfo fl = false →
      (∀ fl2 ∈ mC8.files, fl2.fileId = fl.fileId → missingFileInfo fl2 = false) →
      ({ files := [],
         directories :=
           [{ projId := "project-1", folder := "/", dirname := "/A",
              ctimeMillisec := 11, mtimeMillisec := 13 },
            { projId := "project-1", folder := "/", dirname := "/B",
              ctimeMillisec := 11, mtimeMillisec := 13 }] } : Manifest).files[i]?
        = some fl) ∧
    (∀ (i : Nat) (d : ManifestDir), mC8.directories[i]? = some d →
      (∀ d2 ∈ mC8.directories, d2.projId = d.projId →
        (¬ (d2.ctimeMillisec = 0) ∧ ¬ (d2.mtimeMillisec = 0))) →
      ({ files := [],
         directories :=
           [{ projId := "project-1", folder := "/", dirname := "/A",
              ctimeMillisec := 11, mtimeMillisec := 13 },
            { projId := "project-1", folder := "/", dirname := "/B",
              ctimeMillisec := 11, mtimeMillisec := 13 }] } : Manifest).directories[i]?
        = some d) :=
  c8_fill_amended mC8 bulkC8 projC8
    (by
      intro ids f h x hx
      have hf : (fun _ => none : String → Option DxDescribeDataObject) = f :=
        Except.ok.inj h
      rw [← hf] at hx
      cases hx)
    (by
      intro pId p h
      unfold projC8 at h
      by_cases hp : pId = "project-1"
      · rw [if_pos hp] at h
        rw [← Except.ok.inj h, hp]
      · rw [if_neg hp] at h
        cases h)
    { files := [],
      directories :=
        [{ projId := "project-1", folder := "/", dirname := "/A",
           ctimeMillisec := 11, mtimeMillisec := 13 },
         { projId := "project-1", folder := "/", dirname := "/B",
           ctimeMillisec := 11, mtimeMillisec := 13 }] }
    (by decide)
